import Mathlib

/-!
# A shallow embedding of the `simplechain` ledger engine

This file embeds the blockchain ledger engine (the `Block` and `Chain`
classes of the source module `Blockchain/simplechain`) into Lean and proves
the specification's claims about it.

Modelling conventions:

* JavaScript values that flow through the engine (block payloads and the
  `previousHash` column, which holds either the sentinel number `-1` or a
  digest string) are modelled by the small dynamic-value type `JVal`.
* The content hash comes from the external `node-object-hash` package, which
  is not part of this repository; every definition and theorem is therefore
  parametric in a digest function `hashFn : BlockObject -> String` over the
  hashed record shape.  The source's `delete tmpObject.hash` before hashing
  is modelled by setting the record's `hash` field to `none` before applying
  `hashFn`.  Concrete witnesses instantiate `hashFn` with an injective
  field-encoding function `encHash`.
* The two sqlite tables are modelled as lists of rows; `INSERT` under the
  `INTEGER PRIMARY KEY` and the `UNIQUE INDEX` on the digest column is an
  `Option`-valued insert that fails exactly on a key conflict (other I/O
  faults of the storage engine are outside the model).
* The unbounded proof-of-work `while (true)` loop is embedded fuel-indexed:
  `Chain.proofOfWork` returns `none` when the iteration budget is exhausted,
  so statements about the loop are conditional on termination.
* `Math.random()` has no counterpart in Lean: `Chain.add` receives the
  drawn starting nonce as an explicit argument.
* `Chain.initialize` of the source is named `Chain.init` here.
-/

/-- A dynamic (JavaScript) value as it appears in the engine: a number or a
string.  Payloads, the `previousHash` field (sentinel `-1` or a digest
string) and table columns are drawn from this type. -/
inductive JVal where
  | num (n : Int)
  | str (s : String)
deriving DecidableEq, Repr

/-- `JSON.stringify` restricted to the values the engine stores in the
`data` column.  String escaping is not modelled: the payloads considered
here contain no characters that `JSON.stringify` would escape. -/
def jsonStringify : JVal → String
  | .num n => toString n
  | .str s => "\"" ++ s ++ "\""

/-- The record the source assigns to `this.object` in `Block.build`: the
five content fields plus the `hash` field, which is absent (`none`) until
`build` fills it in. -/
structure BlockObject where
  index : Int
  timestamp : Int
  previousHash : JVal
  data : JVal
  nonce : Int
  hash : Option String
deriving DecidableEq, Repr

instance : Inhabited BlockObject :=
  ⟨⟨0, 0, JVal.num 0, JVal.num 0, 0, none⟩⟩

/-- A `Block` instance.  The source's fields `data`, `timestamp`, `index`,
`previousHash`, `nonce` and `object` are carried verbatim; since every
block the claims quantify over has been sealed by `build` (which always
assigns `object`), `object` is kept non-optional, and `Block.new` fills it
with a placeholder that `build` overwrites. -/
structure Block where
  data : JVal
  timestamp : Int
  index : Int
  previousHash : JVal
  nonce : Int
  object : BlockObject
deriving DecidableEq, Repr

/-- `new Block(data)` with `o === null`: records the payload and the
construction-time timestamp (`new Date() / 1`), which is passed explicitly
since Lean has no clock.  The remaining fields hold placeholders that
`build` overwrites before any use. -/
def Block.new (data : JVal) (now : Int) : Block :=
  { data := data
    timestamp := now
    index := 0
    previousHash := JVal.num 0
    nonce := 0
    object := default }

/-- `Block.hash()`: copy `this.object`, delete its `hash` field, and digest
the result.  The delete is modelled by nulling the `hash` field of the
record handed to `hashFn`. -/
def Block.hash (hashFn : BlockObject → String) (b : Block) : String :=
  hashFn { b.object with hash := none }

/-- `Block.build(index, previousHash, nonce)`: assign the linkage fields,
rebuild `this.object` from the current field values, then store
`this.hash()` into `object.hash`.  Mutation in place becomes returning the
updated block. -/
def Block.build (hashFn : BlockObject → String) (b : Block)
    (index : Int) (previousHash : JVal) (nonce : Int) : Block :=
  let b1 : Block :=
    { b with
      index := index
      previousHash := previousHash
      nonce := nonce
      object :=
        { index := index
          timestamp := b.timestamp
          previousHash := previousHash
          data := b.data
          nonce := nonce
          hash := none } }
  { b1 with object := { b1.object with hash := some (Block.hash hashFn b1) } }

/-- `Block.isValid(previousBlock)`: false on an index discontinuity, on a
mismatch between `this.previousHash` and a fresh digest of the predecessor,
or on a mismatch between the cached `this.object.hash` and a fresh digest
of this block; true otherwise.  Note the source compares the predecessor's
digest (a string) against `this.previousHash` (a `JVal`), so the comparison
is at `JVal`. -/
def Block.isValid (hashFn : BlockObject → String) (b prev : Block) : Bool :=
  if prev.index + 1 != b.index then
    false
  else if JVal.str (Block.hash hashFn prev) != b.previousHash then
    false
  else if b.object.hash != some (Block.hash hashFn b) then
    false
  else
    true

/-- A row of the `chain` table:
`(i INTEGER PRIMARY KEY, hash, previousHash, nonce, timestamp, data)`.
The `data` column holds the `JSON.stringify` of the payload, hence is a
`String`. -/
structure ChainRow where
  i : Int
  hash : String
  previousHash : JVal
  nonce : Int
  timestamp : Int
  data : String
deriving DecidableEq, Repr

/-- A row of the `anchor` table: `(i INTEGER PRIMARY KEY, hash,
previousHash)`. -/
structure AnchorRow where
  i : Int
  hash : String
  previousHash : JVal
deriving DecidableEq, Repr

/-- `INSERT INTO chain VALUES (...)` under the `INTEGER PRIMARY KEY` on `i`
and the `UNIQUE INDEX` on `hash`: fails (`none`) exactly when either key is
already present. -/
def insertChainRow (tbl : List ChainRow) (r : ChainRow) :
    Option (List ChainRow) :=
  if tbl.any (fun x => x.i == r.i || x.hash == r.hash) then none
  else some (tbl ++ [r])

/-- `INSERT INTO anchor VALUES (...)` under the same two key constraints. -/
def insertAnchorRow (tbl : List AnchorRow) (r : AnchorRow) :
    Option (List AnchorRow) :=
  if tbl.any (fun x => x.i == r.i || x.hash == r.hash) then none
  else some (tbl ++ [r])

/-- `SELECT * FROM chain ORDER BY i DESC LIMIT 1`: the row with the
greatest `i`, or `none` on an empty table.  `i` is the primary key, so ties
cannot arise in tables built by `insertChainRow`. -/
def latestChainRow (tbl : List ChainRow) : Option ChainRow :=
  tbl.foldl
    (fun acc r =>
      match acc with
      | none => some r
      | some m => if m.i < r.i then some r else some m)
    none

/-- One step of the fold that finds the highest-indexed anchor row. -/
def maxRowStep (acc : Option AnchorRow) (r : AnchorRow) : Option AnchorRow :=
  match acc with
  | none => some r
  | some m => if m.i < r.i then some r else some m

/-- `SELECT i, hash FROM anchor ORDER BY i DESC LIMIT 1`. -/
def latestAnchorRow (tbl : List AnchorRow) : Option AnchorRow :=
  tbl.foldl maxRowStep none

/-- The row `_addBlockToChain` binds for a block: `i = block.index`,
`hash = block.hash()` (recomputed at insert time), the linkage and nonce
fields, and the `JSON.stringify` of the payload. -/
def chainRowOf (hashFn : BlockObject → String) (b : Block) : ChainRow :=
  { i := b.index
    hash := Block.hash hashFn b
    previousHash := b.previousHash
    nonce := b.nonce
    timestamp := b.timestamp
    data := jsonStringify b.data }

/-- The in-memory state of a `Chain` instance together with the contents of
its two tables.  `powHashPfx` models the source field `powHashPrefix`
(`null` disables mining).  The `name` and `maxRandomNonce` fields play no
role in the embedded semantics (the drawn nonce is an explicit argument of
`add`) and are omitted. -/
structure ChainState where
  powHashPfx : Option String
  currentBlock : Block
  chainTable : List ChainRow
  anchorTable : List AnchorRow
deriving DecidableEq, Repr

/-- `Chain._addBlockToChain(block)`: attempt the keyed insert; `true` and
the grown table on success, `false` and the unchanged table when the insert
throws (key conflict). -/
def Chain.addBlockToChain (hashFn : BlockObject → String)
    (tbl : List ChainRow) (b : Block) : Bool × List ChainRow :=
  match insertChainRow tbl (chainRowOf hashFn b) with
  | some t => (true, t)
  | none => (false, tbl)

/-- `block.object.hash.slice(0, pfx.length) === pfx`: the proof-of-work
acceptance test.  Every block reaching this test in the source has been
built, so `object.hash` is present; `getD` supplies a harmless default for
totality. -/
def powMatches (pfx : String) (b : Block) : Bool :=
  (b.object.hash.getD "").take pfx.length == pfx

/-- One failed proof-of-work iteration: `block.nonce++` followed by
`block.build(block.index, block.previousHash, block.nonce)`. -/
def powStep (hashFn : BlockObject → String) (b : Block) : Block :=
  Block.build hashFn b b.index b.previousHash (b.nonce + 1)

/-- `Chain._proofOfWork(block)`: return the block unchanged when no digest
constraint is configured; otherwise loop, incrementing the nonce and
rebuilding, until the digest's head matches.  The source loop is unbounded;
here it is fuel-indexed, and `none` means the budget ran out before a
matching nonce was found. -/
def Chain.proofOfWork (hashFn : BlockObject → String) (pfx? : Option String)
    (fuel : Nat) (b : Block) : Option Block :=
  match pfx? with
  | none => some b
  | some p =>
    match fuel with
    | 0 => none
    | Nat.succ f =>
      if powMatches p b then some b
      else Chain.proofOfWork hashFn (some p) f (powStep hashFn b)

/-- The value `Chain.add` hands back: the committed block's cached digest
on success, `false` on any failure. -/
inductive AddResult where
  | ok (digest : String)
  | fail
deriving DecidableEq, Repr

/-- `Chain.add(block)`: seal the candidate as
`(head.index + 1, head.hash(), randomNonce)`, run the proof-of-work search,
validate against the head, and attempt the keyed insert; only a fully
successful run advances `currentBlock`.  The drawn starting nonce and the
proof-of-work fuel are explicit arguments; the outer `none` is the
fuel-exhausted (source: non-terminating) case.  The returned `Block` is the
candidate as `add` leaves it — the source mutates the caller's block in
place. -/
def Chain.add (hashFn : BlockObject → String) (s : ChainState)
    (cand : Block) (randomNonce : Int) (fuel : Nat) :
    Option (AddResult × ChainState × Block) :=
  let b := Block.build hashFn cand (s.currentBlock.index + 1)
    (JVal.str (Block.hash hashFn s.currentBlock)) randomNonce
  match Chain.proofOfWork hashFn s.powHashPfx fuel b with
  | none => none
  | some b2 =>
    if Block.isValid hashFn b2 s.currentBlock then
      match Chain.addBlockToChain hashFn s.chainTable b2 with
      | (true, tbl) =>
        some (AddResult.ok ((b2.object.hash).getD ""),
          { s with
            currentBlock := b2
            chainTable := tbl }, b2)
      | (false, _) => some (AddResult.fail, s, b2)
    else
      some (AddResult.fail, s, b2)

/-- `Chain.initialize(seed = true)` after the tables have been opened and
created: on an empty chain table, seed and commit the genesis block
`new Block('GENBLOCK').build(0, -1, 0)` (no proof-of-work); otherwise
reload the highest-indexed row into `currentBlock` — construct a block from
the row's `data` column text, build it with the row's key fields, patch the
timestamp from the row, and recompute `object.hash`.  `now` is the wall
clock read by the `Block` constructor. -/
def Chain.init (hashFn : BlockObject → String) (pfx? : Option String)
    (now : Int) (chainTable : List ChainRow) (anchorTable : List AnchorRow) :
    ChainState :=
  match latestChainRow chainTable with
  | none =>
    let g0 := Block.build hashFn (Block.new (JVal.str "GENBLOCK") now) 0
      (JVal.num (-1)) 0
    let g := { g0 with object :=
      { g0.object with hash := some (Block.hash hashFn g0) } }
    let tbl := (Chain.addBlockToChain hashFn chainTable g).2
    { powHashPfx := pfx?
      currentBlock := g
      chainTable := tbl
      anchorTable := anchorTable }
  | some row =>
    let b0 := Block.build hashFn (Block.new (JVal.str row.data) now) row.i
      row.previousHash row.nonce
    let b1 := { b0 with
      timestamp := row.timestamp
      object := { b0.object with timestamp := row.timestamp } }
    let b2 := { b1 with object :=
      { b1.object with hash := some (Block.hash hashFn b1) } }
    { powHashPfx := pfx?
      currentBlock := b2
      chainTable := chainTable
      anchorTable := anchorTable }

/-- Insertion step of the ascending sort that models `ORDER BY i ASC`. -/
def insertSortedByI (r : ChainRow) : List ChainRow → List ChainRow
  | [] => [r]
  | x :: xs => if r.i ≤ x.i then r :: x :: xs else x :: insertSortedByI r xs

/-- `ORDER BY i ASC` over a list of chain rows. -/
def sortByI (l : List ChainRow) : List ChainRow :=
  l.foldr insertSortedByI []

/-- The previous-anchor data `anchor()` starts from: the latest anchor
row's `(i, hash)`, or `(0, -1)` when the anchor table is empty. -/
def anchorPrev (tbl : List AnchorRow) : Int × JVal :=
  match latestAnchorRow tbl with
  | some r => (r.i, JVal.str r.hash)
  | none => (0, JVal.num (-1))

/-- `SELECT hash FROM chain WHERE i > lo AND i <= hi ORDER BY i ASC`: the
digests of the covered block range, in index order. -/
def scanRange (chain : List ChainRow) (lo hi : Int) : List String :=
  (sortByI (chain.filter (fun r => lo < r.i && r.i ≤ hi))).map
    (fun r => r.hash)

/-- `Chain.anchor()`: read the latest anchor, range-scan the chain table
over `(previousAnchor, currentBlock.index]`, and, if the scan is nonempty,
digest the ordered hash list and attempt the keyed insert of
`(currentBlock.index, anchorHash, previoushash)`.  `listHash` is the
`node-object-hash` digest of the scanned row list, parametric like
`hashFn`. -/
def Chain.anchor (listHash : List String → String) (s : ChainState) :
    Bool × ChainState :=
  let prev := anchorPrev s.anchorTable
  let hashRows := scanRange s.chainTable prev.1 s.currentBlock.index
  if hashRows.length > 0 then
    let anchorHash := listHash hashRows
    match insertAnchorRow s.anchorTable
      { i := s.currentBlock.index
        hash := anchorHash
        previousHash := prev.2 } with
    | some tbl => (true, { s with anchorTable := tbl })
    | none => (false, s)
  else
    (false, s)

/-! ## Concrete digest functions for witnesses

The claims hold for every digest function; the witnesses below instantiate
`hashFn` with an explicit field-encoding function, so that each statement
can be evaluated on concrete inputs. -/

/-- Tagged rendering of a dynamic value, used by `encHash`. -/
def jvalStr : JVal → String
  | .num n => "n:" ++ toString n
  | .str s => "s:" ++ s

/-- A concrete digest function: an explicit encoding of the five content
fields.  It distinguishes any two records that differ in a content field,
which is all the witnesses need from a digest. -/
def encHash (o : BlockObject) : String :=
  "h|" ++ toString o.index ++ "|" ++ toString o.timestamp ++ "|" ++
    jvalStr o.previousHash ++ "|" ++ jvalStr o.data ++ "|" ++ toString o.nonce

/-- A digest function that also reads the record's `hash` field, exercising
the claim that `Block.hash` nulls that field before digesting. -/
def encHashStored (o : BlockObject) : String :=
  encHash o ++ "|" ++ (match o.hash with | some h => h | none => "-")

/-- A concrete digest over the scanned hash list, for anchor witnesses. -/
def listHash0 (l : List String) : String :=
  "A|" ++ String.intercalate "," l

/-! ## Helper lemmas: `build` and the proof-of-work step -/

theorem Block.build_index (hashFn : BlockObject → String) (b : Block)
    (i : Int) (p : JVal) (n : Int) :
    (Block.build hashFn b i p n).index = i := rfl

theorem Block.build_previousHash (hashFn : BlockObject → String) (b : Block)
    (i : Int) (p : JVal) (n : Int) :
    (Block.build hashFn b i p n).previousHash = p := rfl

theorem Block.build_nonce (hashFn : BlockObject → String) (b : Block)
    (i : Int) (p : JVal) (n : Int) :
    (Block.build hashFn b i p n).nonce = n := rfl

/-- A built block's cached digest is exactly a fresh digest of itself: the
`hash` slot `build` fills is the digest of the record with that slot
nulled. -/
theorem Block.build_selfhash (hashFn : BlockObject → String) (b : Block)
    (i : Int) (p : JVal) (n : Int) :
    (Block.build hashFn b i p n).object.hash =
      some (Block.hash hashFn (Block.build hashFn b i p n)) := rfl

theorem powStep_index (hashFn : BlockObject → String) (b : Block) :
    (powStep hashFn b).index = b.index := rfl

theorem powStep_previousHash (hashFn : BlockObject → String) (b : Block) :
    (powStep hashFn b).previousHash = b.previousHash := rfl

theorem powStep_nonce (hashFn : BlockObject → String) (b : Block) :
    (powStep hashFn b).nonce = b.nonce + 1 := rfl

theorem powStep_selfhash (hashFn : BlockObject → String) (b : Block) :
    (powStep hashFn b).object.hash =
      some (Block.hash hashFn (powStep hashFn b)) :=
  Block.build_selfhash hashFn b b.index b.previousHash (b.nonce + 1)

theorem powStep_iterate_index (hashFn : BlockObject → String) (b : Block)
    (k : Nat) : ((powStep hashFn)^[k] b).index = b.index := by
  induction k with
  | zero => rfl
  | succ k ih => rw [Function.iterate_succ_apply', powStep_index, ih]

theorem powStep_iterate_previousHash (hashFn : BlockObject → String)
    (b : Block) (k : Nat) :
    ((powStep hashFn)^[k] b).previousHash = b.previousHash := by
  induction k with
  | zero => rfl
  | succ k ih => rw [Function.iterate_succ_apply', powStep_previousHash, ih]

theorem powStep_iterate_nonce (hashFn : BlockObject → String) (b : Block)
    (k : Nat) : ((powStep hashFn)^[k] b).nonce = b.nonce + k := by
  induction k with
  | zero => simp
  | succ k ih =>
    rw [Function.iterate_succ_apply', powStep_nonce, ih]
    push_cast
    ring

theorem powStep_iterate_selfhash (hashFn : BlockObject → String) (b : Block)
    (k : Nat) (h : b.object.hash = some (Block.hash hashFn b)) :
    ((powStep hashFn)^[k] b).object.hash =
      some (Block.hash hashFn ((powStep hashFn)^[k] b)) := by
  cases k with
  | zero => exact h
  | succ k => rw [Function.iterate_succ_apply']; exact powStep_selfhash ..

/-! ## Helper lemmas: the proof-of-work loop -/

/-- Characterization of a terminating search run under a configured digest
constraint: the result matches, it is an iterate of the failed-attempt step
from the starting block, and every earlier iterate failed the test. -/
theorem proofOfWork_some_spec (hashFn : BlockObject → String) (p : String) :
    ∀ (fuel : Nat) (b b' : Block),
      Chain.proofOfWork hashFn (some p) fuel b = some b' →
      powMatches p b' = true ∧
      ∃ k, k ≤ fuel ∧ b' = (powStep hashFn)^[k] b ∧
        ∀ j, j < k → powMatches p ((powStep hashFn)^[j] b) = false := by
  intro fuel
  induction fuel with
  | zero => intro b b' h; simp [Chain.proofOfWork] at h
  | succ f ih =>
    intro b b' h
    rw [Chain.proofOfWork] at h
    by_cases hm : powMatches p b
    · simp only [hm, if_true, Option.some.injEq] at h
      subst h
      exact ⟨hm, 0, Nat.zero_le _, rfl, fun j hj => absurd hj (Nat.not_lt_zero j)⟩
    · simp only [hm, if_false, Bool.false_eq_true] at h
      obtain ⟨hmatch, k, hk, hb, hfail⟩ := ih (powStep hashFn b) b' h
      refine ⟨hmatch, k + 1, Nat.succ_le_succ hk, ?_, ?_⟩
      · rw [hb, Function.iterate_succ_apply]
      · intro j hj
        cases j with
        | zero => simpa using hm
        | succ j =>
          rw [Function.iterate_succ_apply]
          exact hfail j (Nat.lt_of_succ_lt_succ hj)

/-- Any terminating search result is an iterate of the step function
applied to the starting block (with zero iterations when no digest
constraint is configured). -/
theorem proofOfWork_output (hashFn : BlockObject → String)
    (pfx? : Option String) (fuel : Nat) (b b' : Block)
    (h : Chain.proofOfWork hashFn pfx? fuel b = some b') :
    ∃ k, b' = (powStep hashFn)^[k] b := by
  cases pfx? with
  | none =>
    simp only [Chain.proofOfWork, Option.some.injEq] at h
    exact ⟨0, h.symm⟩
  | some p =>
    obtain ⟨-, k, -, hb, -⟩ := proofOfWork_some_spec hashFn p fuel b b' h
    exact ⟨k, hb⟩

/-! ## Helper lemmas: validation and `add` -/

/-- `Block.isValid` as the conjunction of its three checks. -/
theorem isValid_iff (hashFn : BlockObject → String) (b prev : Block) :
    Block.isValid hashFn b prev = true ↔
      prev.index + 1 = b.index ∧
      b.previousHash = JVal.str (Block.hash hashFn prev) ∧
      b.object.hash = some (Block.hash hashFn b) := by
  constructor
  · intro h
    unfold Block.isValid at h
    by_cases hc1 : prev.index + 1 = b.index
    · rw [if_neg (fun hb => bne_iff_ne.mp hb hc1)] at h
      by_cases hc2 : b.previousHash = JVal.str (Block.hash hashFn prev)
      · rw [if_neg (fun hb => bne_iff_ne.mp hb hc2.symm)] at h
        by_cases hc3 : b.object.hash = some (Block.hash hashFn b)
        · exact ⟨hc1, hc2, hc3⟩
        · rw [if_pos (bne_iff_ne.mpr hc3)] at h
          exact absurd h (by simp)
      · rw [if_pos (bne_iff_ne.mpr (fun e => hc2 e.symm))] at h
        exact absurd h (by simp)
    · rw [if_pos (bne_iff_ne.mpr hc1)] at h
      exact absurd h (by simp)
  · rintro ⟨e1, e2, e3⟩
    unfold Block.isValid
    rw [if_neg (fun hb => bne_iff_ne.mp hb e1),
      if_neg (fun hb => bne_iff_ne.mp hb e2.symm),
      if_neg (fun hb => bne_iff_ne.mp hb e3)]

/-- The block `add` seals from the head always validates against the head:
its index, previous-digest link and cached digest are exactly what
`isValid` recomputes. -/
theorem isValid_build (hashFn : BlockObject → String) (cand prev : Block)
    (rn : Int) :
    Block.isValid hashFn
      (Block.build hashFn cand (prev.index + 1)
        (JVal.str (Block.hash hashFn prev)) rn) prev = true := by
  rw [isValid_iff]
  exact ⟨rfl, rfl, Block.build_selfhash ..⟩

/-- Complete case analysis of a returning `add` call: the proof-of-work
search produced the returned candidate from the sealed block, and either
the run failed (validation or insert) leaving the state untouched, or it
succeeded, appending exactly the candidate's row and advancing the head. -/
theorem add_cases (hashFn : BlockObject → String) (s : ChainState)
    (cand : Block) (rn : Int) (fuel : Nat) (res : AddResult)
    (s' : ChainState) (b' : Block)
    (h : Chain.add hashFn s cand rn fuel = some (res, s', b')) :
    Chain.proofOfWork hashFn s.powHashPfx fuel
      (Block.build hashFn cand (s.currentBlock.index + 1)
        (JVal.str (Block.hash hashFn s.currentBlock)) rn) = some b' ∧
    ((res = AddResult.fail ∧ s' = s ∧
        (Block.isValid hashFn b' s.currentBlock = false ∨
          insertChainRow s.chainTable (chainRowOf hashFn b') = none)) ∨
      (∃ tbl, res = AddResult.ok ((b'.object.hash).getD "") ∧
        Block.isValid hashFn b' s.currentBlock = true ∧
        insertChainRow s.chainTable (chainRowOf hashFn b') = some tbl ∧
        s' = { s with currentBlock := b', chainTable := tbl })) := by
  unfold Chain.add at h
  simp only [] at h
  cases hpow : Chain.proofOfWork hashFn s.powHashPfx fuel
      (Block.build hashFn cand (s.currentBlock.index + 1)
        (JVal.str (Block.hash hashFn s.currentBlock)) rn) with
  | none => rw [hpow] at h; exact absurd h (by simp)
  | some b2 =>
    rw [hpow] at h
    simp only [] at h
    by_cases hv : Block.isValid hashFn b2 s.currentBlock = true
    · rw [if_pos hv] at h
      unfold Chain.addBlockToChain at h
      cases hins : insertChainRow s.chainTable (chainRowOf hashFn b2) with
      | none =>
        rw [hins] at h
        simp only [Option.some.injEq, Prod.mk.injEq] at h
        obtain ⟨hres, hs, hb⟩ := h
        subst hb
        exact ⟨rfl, Or.inl ⟨hres.symm, hs.symm, Or.inr hins⟩⟩
      | some tbl =>
        rw [hins] at h
        simp only [Option.some.injEq, Prod.mk.injEq] at h
        obtain ⟨hres, hs, hb⟩ := h
        subst hb
        exact ⟨rfl, Or.inr ⟨tbl, hres.symm, hv, hins, hs.symm⟩⟩
    · rw [if_neg hv] at h
      simp only [Option.some.injEq, Prod.mk.injEq] at h
      obtain ⟨hres, hs, hb⟩ := h
      subst hb
      exact ⟨rfl, Or.inl ⟨hres.symm, hs.symm, Or.inl (by simpa using hv)⟩⟩

/-- Whichever way a returning `add` call ends, the candidate it hands back
carries the sealed linkage fields: the successor index, the head's fresh
digest as previous link, a cached digest that recomputes from its own
fields, and a nonce that is the drawn start plus the number of failed
proof-of-work attempts. -/
theorem add_block_facts (hashFn : BlockObject → String) (s : ChainState)
    (cand : Block) (rn : Int) (fuel : Nat) (res : AddResult)
    (s' : ChainState) (b' : Block)
    (h : Chain.add hashFn s cand rn fuel = some (res, s', b')) :
    b'.index = s.currentBlock.index + 1 ∧
    b'.previousHash = JVal.str (Block.hash hashFn s.currentBlock) ∧
    b'.object.hash = some (Block.hash hashFn b') ∧
    ∃ k : Nat, b'.nonce = rn + k := by
  obtain ⟨hpow, -⟩ := add_cases hashFn s cand rn fuel res s' b' h
  obtain ⟨k, hk⟩ := proofOfWork_output hashFn s.powHashPfx fuel _ b' hpow
  subst hk
  refine ⟨?_, ?_, ?_, k, ?_⟩
  · rw [powStep_iterate_index, Block.build_index]
  · rw [powStep_iterate_previousHash, Block.build_previousHash]
  · exact powStep_iterate_selfhash hashFn _ k (Block.build_selfhash ..)
  · rw [powStep_iterate_nonce, Block.build_nonce]

/-! ## Helper lemmas: the anchor table scan -/

theorem foldl_maxRowStep_mem : ∀ (tbl : List AnchorRow)
    (acc : Option AnchorRow) (m : AnchorRow),
    tbl.foldl maxRowStep acc = some m → acc = some m ∨ m ∈ tbl := by
  intro tbl
  induction tbl with
  | nil => intro acc m h; exact Or.inl h
  | cons r t ih =>
    intro acc m h
    rcases ih (maxRowStep acc r) m h with hstep | hmem
    · cases acc with
      | none =>
        simp only [maxRowStep, Option.some.injEq] at hstep
        exact Or.inr (hstep ▸ List.mem_cons_self r t)
      | some a =>
        simp only [maxRowStep] at hstep
        by_cases hlt : a.i < r.i
        · rw [if_pos hlt] at hstep
          exact Or.inr (Option.some.inj hstep ▸ List.mem_cons_self r t)
        · rw [if_neg hlt] at hstep
          exact Or.inl hstep
    · exact Or.inr (List.mem_cons_of_mem r hmem)

theorem foldl_maxRowStep_ge : ∀ (tbl : List AnchorRow)
    (acc : Option AnchorRow) (m : AnchorRow),
    tbl.foldl maxRowStep acc = some m →
    (∀ r ∈ tbl, r.i ≤ m.i) ∧ (∀ a, acc = some a → a.i ≤ m.i) := by
  intro tbl
  induction tbl with
  | nil =>
    intro acc m h
    simp only [List.foldl_nil] at h
    refine ⟨fun r hr => absurd hr (List.not_mem_nil r), fun a ha => ?_⟩
    rw [ha] at h
    rw [Option.some.inj h]
  | cons r t ih =>
    intro acc m h
    obtain ⟨hall, hacc⟩ := ih (maxRowStep acc r) m h
    have hr : r.i ≤ m.i := by
      cases acc with
      | none => exact hacc r rfl
      | some a =>
        simp only [maxRowStep] at hacc
        by_cases hlt : a.i < r.i
        · exact hacc r (by rw [if_pos hlt])
        · exact le_trans (le_of_not_lt hlt) (hacc a (by rw [if_neg hlt]))
    refine ⟨fun x hx => ?_, fun a ha => ?_⟩
    · rcases List.mem_cons.mp hx with hx | hx
      · exact hx ▸ hr
      · exact hall x hx
    · cases acc with
      | none => exact absurd ha (by simp)
      | some a0 =>
        have haa : a0 = a := Option.some.inj ha
        subst haa
        simp only [maxRowStep] at hacc
        by_cases hlt : a0.i < r.i
        · exact le_trans (le_of_lt hlt) hr
        · exact hacc a0 (by rw [if_neg hlt])

theorem foldl_maxRowStep_isSome : ∀ (t : List AnchorRow) (a : AnchorRow),
    ∃ m, t.foldl maxRowStep (some a) = some m := by
  intro t
  induction t with
  | nil => intro a; exact ⟨a, rfl⟩
  | cons r t ih =>
    intro a
    simp only [List.foldl_cons, maxRowStep]
    by_cases hlt : a.i < r.i
    · rw [if_pos hlt]; exact ih r
    · rw [if_neg hlt]; exact ih a

/-- An empty latest-row query means an empty anchor table. -/
theorem latestAnchorRow_eq_none (tbl : List AnchorRow)
    (h : latestAnchorRow tbl = none) : tbl = [] := by
  cases tbl with
  | nil => rfl
  | cons r t =>
    exfalso
    obtain ⟨m, hm⟩ := foldl_maxRowStep_isSome t r
    unfold latestAnchorRow at h
    rw [List.foldl_cons] at h
    simp only [maxRowStep] at h
    rw [hm] at h
    exact Option.noConfusion h

/-- Appending a row that strictly dominates every index makes it the
latest row. -/
theorem latestAnchorRow_append (tbl : List AnchorRow) (r : AnchorRow)
    (h : ∀ x ∈ tbl, x.i < r.i) :
    latestAnchorRow (tbl ++ [r]) = some r := by
  unfold latestAnchorRow
  rw [List.foldl_append]
  cases hacc : tbl.foldl maxRowStep none with
  | none => rfl
  | some m =>
    have hmem : m ∈ tbl := by
      rcases foldl_maxRowStep_mem tbl none m hacc with hl | hl
      · exact absurd hl (by simp)
      · exact hl
    simp only [List.foldl_cons, List.foldl_nil, maxRowStep]
    rw [if_pos (h m hmem)]

theorem mem_insertSortedByI (r x : ChainRow) : ∀ (l : List ChainRow),
    x ∈ insertSortedByI r l ↔ x = r ∨ x ∈ l := by
  intro l
  induction l with
  | nil => simp [insertSortedByI]
  | cons a t ih =>
    simp only [insertSortedByI]
    by_cases hle : r.i ≤ a.i
    · rw [if_pos hle]
      simp [List.mem_cons]
    · rw [if_neg hle]
      simp only [List.mem_cons, ih]
      tauto

theorem mem_sortByI (x : ChainRow) : ∀ (l : List ChainRow),
    x ∈ sortByI l ↔ x ∈ l := by
  intro l
  induction l with
  | nil => simp [sortByI]
  | cons a t ih =>
    show x ∈ insertSortedByI a (sortByI t) ↔ _
    rw [mem_insertSortedByI, ih]
    simp [List.mem_cons]

/-- A nonempty scan exhibits a chain row inside the scanned interval. -/
theorem scanRange_ne_nil (chain : List ChainRow) (lo hi : Int)
    (h : scanRange chain lo hi ≠ []) :
    ∃ r ∈ chain, lo < r.i ∧ r.i ≤ hi := by
  unfold scanRange at h
  rw [ne_eq, List.map_eq_nil_iff] at h
  obtain ⟨x, hx⟩ := List.exists_mem_of_ne_nil _ h
  rw [mem_sortByI] at hx
  obtain ⟨hxc, hxp⟩ := List.mem_filter.mp hx
  rw [Bool.and_eq_true, decide_eq_true_eq, decide_eq_true_eq] at hxp
  exact ⟨x, hxc, hxp⟩

/-- A scan over an interval containing no chain row index is empty. -/
theorem scanRange_eq_nil (chain : List ChainRow) (lo hi : Int)
    (h : ∀ r ∈ chain, ¬(lo < r.i ∧ r.i ≤ hi)) :
    scanRange chain lo hi = [] := by
  unfold scanRange
  have hf : chain.filter (fun r => lo < r.i && r.i ≤ hi) = [] := by
    rw [List.filter_eq_nil_iff]
    intro a ha
    rw [Bool.and_eq_true, decide_eq_true_eq, decide_eq_true_eq]
    exact h a ha
  rw [hf]
  rfl

/-- A successful keyed insert into the anchor table appends the row. -/
theorem insertAnchorRow_some (tbl t : List AnchorRow) (r : AnchorRow)
    (h : insertAnchorRow tbl r = some t) : t = tbl ++ [r] := by
  unfold insertAnchorRow at h
  by_cases hc : tbl.any (fun x => x.i == r.i || x.hash == r.hash) = true
  · rw [if_pos hc] at h
    exact absurd h (by simp)
  · rw [if_neg hc] at h
    exact (Option.some.inj h).symm

/-- Case analysis of a successful `anchor()` call: the scan over
`(previousAnchor, head.index]` was nonempty and the run appended exactly
the row `(head.index, digest of the scan, previous anchor digest)`. -/
theorem anchor_true_cases (listHash : List String → String) (s s1 : ChainState)
    (h : Chain.anchor listHash s = (true, s1)) :
    scanRange s.chainTable (anchorPrev s.anchorTable).1
      s.currentBlock.index ≠ [] ∧
    s1 = { s with anchorTable := s.anchorTable ++
      [{ i := s.currentBlock.index
         hash := listHash (scanRange s.chainTable (anchorPrev s.anchorTable).1
           s.currentBlock.index)
         previousHash := (anchorPrev s.anchorTable).2 }] } := by
  unfold Chain.anchor at h
  simp only [] at h
  by_cases hne : scanRange s.chainTable (anchorPrev s.anchorTable).1
      s.currentBlock.index = []
  · rw [hne] at h
    simp at h
  · refine ⟨hne, ?_⟩
    rw [if_pos ?_] at h
    · cases hins : insertAnchorRow s.anchorTable
        { i := s.currentBlock.index
          hash := listHash (scanRange s.chainTable (anchorPrev s.anchorTable).1
            s.currentBlock.index)
          previousHash := (anchorPrev s.anchorTable).2 } with
      | none =>
        rw [hins] at h
        exact absurd h (by simp)
      | some tbl =>
        rw [hins] at h
        simp only [Prod.mk.injEq] at h
        rw [← h.2, insertAnchorRow_some s.anchorTable tbl _ hins]
    · simp only [gt_iff_lt, List.length_pos]
      exact hne

/-- An `anchor()` call whose scan is empty fails and changes nothing. -/
theorem anchor_empty_scan (listHash : List String → String) (s : ChainState)
    (h : scanRange s.chainTable (anchorPrev s.anchorTable).1
      s.currentBlock.index = []) :
    Chain.anchor listHash s = (false, s) := by
  unfold Chain.anchor
  simp only [] 
  rw [h]
  simp

/-- After a successful `anchor()`, the appended row is the new latest row
and the next scan interval `(head.index, head.index]` is empty. -/
theorem anchor_then_empty (listHash : List String → String) (s s1 : ChainState)
    (h : Chain.anchor listHash s = (true, s1)) :
    anchorPrev s1.anchorTable =
      (s.currentBlock.index,
        JVal.str (listHash (scanRange s.chainTable
          (anchorPrev s.anchorTable).1 s.currentBlock.index))) ∧
    s1.currentBlock = s.currentBlock ∧
    s1.chainTable = s.chainTable := by
  obtain ⟨hne, hs1⟩ := anchor_true_cases listHash s s1 h
  obtain ⟨row, -, hrow1, hrow2⟩ :=
    scanRange_ne_nil s.chainTable (anchorPrev s.anchorTable).1
      s.currentBlock.index hne
  have hprev : (anchorPrev s.anchorTable).1 < s.currentBlock.index :=
    lt_of_lt_of_le hrow1 hrow2
  have hall : ∀ x ∈ s.anchorTable, x.i < s.currentBlock.index := by
    intro x hx
    cases hlatest : latestAnchorRow s.anchorTable with
    | none =>
      rw [latestAnchorRow_eq_none s.anchorTable hlatest] at hx
      exact absurd hx (List.not_mem_nil x)
    | some m =>
      have hxm : x.i ≤ m.i :=
        (foldl_maxRowStep_ge s.anchorTable none m hlatest).1 x hx
      have hm : (anchorPrev s.anchorTable).1 = m.i := by
        unfold anchorPrev
        rw [hlatest]
      exact lt_of_le_of_lt hxm (hm ▸ hprev)
  subst hs1
  refine ⟨?_, rfl, rfl⟩
  unfold anchorPrev
  rw [latestAnchorRow_append _ _ hall]

/-! ## Concrete scenario used by the witnesses

A genesis-seeded ledger (no proof-of-work), one successful `add`, one
successful `anchor`, and a ledger whose configured digest constraint is the
one-character head `"h"` that every `encHash` digest satisfies. -/

/-- A fresh ledger: `init` on empty tables, mining disabled. -/
def sGen : ChainState := Chain.init encHash none 100 [] []

/-- One `add` of payload `"x"` on the fresh ledger. -/
def addX : Option (AddResult × ChainState × Block) :=
  Chain.add encHash sGen (Block.new (JVal.str "x") 200) 5 0

/-- The ledger state after `addX`. -/
def sX : ChainState :=
  match addX with
  | some (_, s, _) => s
  | none => sGen

/-- The digest `addX` returned. -/
def dX : String :=
  match addX with
  | some (AddResult.ok d, _, _) => d
  | _ => ""

/-- The candidate block as `addX` left it. -/
def bX : Block :=
  match addX with
  | some (_, _, b) => b
  | none => sGen.currentBlock

/-- The ledger state after one successful `anchor` on `sX`. -/
def sA : ChainState := (Chain.anchor listHash0 sX).2

/-- A fresh ledger whose configured proof-of-work constraint is `"h"`. -/
def sH : ChainState := Chain.init encHash (some "h") 100 [] []

/-- One `add` of payload `"y"` on the mining ledger `sH`. -/
def addY : Option (AddResult × ChainState × Block) :=
  Chain.add encHash sH (Block.new (JVal.str "y") 200) 3 1

/-- The ledger state after `addY`. -/
def sY : ChainState :=
  match addY with
  | some (_, s, _) => s
  | none => sH

/-- The digest `addY` returned. -/
def dY : String :=
  match addY with
  | some (AddResult.ok d, _, _) => d
  | _ => ""

/-- The candidate block as `addY` left it. -/
def bY : Block :=
  match addY with
  | some (_, _, b) => b
  | none => sH.currentBlock

/-- A state whose chain table already holds a row at the head's successor
index, so the next `add` fails at the keyed insert. -/
def sBad : ChainState := { sX with currentBlock := sGen.currentBlock }

/-- The failing `add` on `sBad`. -/
def addBad : Option (AddResult × ChainState × Block) :=
  Chain.add encHash sBad (Block.new (JVal.str "z") 400) 9 0

/-- The ledger state after `addBad`. -/
def sBadOut : ChainState :=
  match addBad with
  | some (_, s, _) => s
  | none => sBad

/-- The candidate block as `addBad` left it. -/
def bBad : Block :=
  match addBad with
  | some (_, _, b) => b
  | none => sBad.currentBlock

/-! ## The claims -/

/-- C3: for sealed blocks `b` and `p`, `b.isValid(p)` is a total boolean
test (the embedding is a total function, so it cannot throw) that returns
true exactly when the index is the successor of `p`'s, the stored
`previousHash` equals a freshly recomputed digest of `p`, and the cached
digest equals a freshly recomputed digest of `b`; it returns false when any
of the three fails. -/
theorem c3_isValid_characterization (hashFn : BlockObject → String)
    (b prev : Block) :
    Block.isValid hashFn b prev = true ↔
      prev.index + 1 = b.index ∧
      b.previousHash = JVal.str (Block.hash hashFn prev) ∧
      b.object.hash = some (Block.hash hashFn b) :=
  isValid_iff hashFn b prev

/-- C3 witness: the characterization evaluated on a concrete sealed pair:
the genesis head of `sX` and the block `addX` committed on top of it. -/
theorem c3_isValid_characterization_witness :
    Block.isValid encHash bX sGen.currentBlock = true :=
  (c3_isValid_characterization encHash bX sGen.currentBlock).mpr (by decide)

/-- C9: the digest of a sealed block is a function of the five content
fields alone: two blocks whose hashed records agree on index, timestamp,
previousHash, payload and nonce produce the same digest under every digest
function, whatever either stored `hash` field holds (present or absent) —
the `hash` slot is nulled before the digest function ever sees the
record.  Determinism is inherent: `Block.hash` is a pure function. -/
theorem c9_hash_ignores_stored (hashFn : BlockObject → String)
    (b b' : Block)
    (hidx : b.object.index = b'.object.index)
    (hts : b.object.timestamp = b'.object.timestamp)
    (hprev : b.object.previousHash = b'.object.previousHash)
    (hdata : b.object.data = b'.object.data)
    (hnonce : b.object.nonce = b'.object.nonce) :
    Block.hash hashFn b = Block.hash hashFn b' := by
  unfold Block.hash
  simp only []
  rw [hidx, hts, hprev, hdata, hnonce]

/-- C9 witness: under a digest function that *does* read the stored `hash`
field, two concrete blocks differing only in that field (one `some`, one
`none`) still digest identically. -/
theorem c9_hash_ignores_stored_witness :
    Block.hash encHashStored
        { data := JVal.str "d"
          timestamp := 1
          index := 2
          previousHash := JVal.str "p"
          nonce := 3
          object :=
            { index := 2
              timestamp := 1
              previousHash := JVal.str "p"
              data := JVal.str "d"
              nonce := 3
              hash := some "zzz" } } =
      Block.hash encHashStored
        { data := JVal.str "d"
          timestamp := 1
          index := 2
          previousHash := JVal.str "p"
          nonce := 3
          object :=
            { index := 2
              timestamp := 1
              previousHash := JVal.str "p"
              data := JVal.str "d"
              nonce := 3
              hash := none } } :=
  c9_hash_ignores_stored encHashStored _ _ rfl rfl rfl rfl rfl

/-- C8: whenever the proof-of-work search terminates: with a configured
constraint `p`, the returned block's cached digest starts with `p` and the
block is the result of `k` increment-and-rebuild steps from the sealed
input — its nonce grew by exactly the number of failed attempts, each of
which failed the digest test; with no constraint (`null`), the search
returns the block immediately, fields untouched. -/
theorem c8_proofOfWork_contract (hashFn : BlockObject → String) (p : String)
    (fuel : Nat) (b b' : Block) :
    Chain.proofOfWork hashFn none fuel b = some b ∧
    (Chain.proofOfWork hashFn (some p) fuel b = some b' →
      ((b'.object.hash).getD "").take p.length = p ∧
      ∃ k, k ≤ fuel ∧ b' = (powStep hashFn)^[k] b ∧
        b'.nonce = b.nonce + k ∧
        ∀ j, j < k → powMatches p ((powStep hashFn)^[j] b) = false) := by
  refine ⟨by rw [Chain.proofOfWork], fun h => ?_⟩
  obtain ⟨hmatch, k, hk, hb, hfail⟩ := proofOfWork_some_spec hashFn p fuel b b' h
  refine ⟨?_, k, hk, hb, ?_, hfail⟩
  · unfold powMatches at hmatch
    exact of_decide_eq_true hmatch
  · rw [hb, powStep_iterate_nonce]

/-- C8 witness: on the concrete block sealed by `addY`, the search under
constraint `"h"` terminates at once (every `encHash` digest starts with
`"h"`), and the no-constraint search is the identity. -/
theorem c8_proofOfWork_contract_witness :
    Chain.proofOfWork encHash none 1 bY = some bY ∧
    ((bY.object.hash).getD "").take ("h".length) = "h" :=
  ⟨(c8_proofOfWork_contract encHash "h" 1 bY bY).1,
    ((c8_proofOfWork_contract encHash "h" 1 bY bY).2 (by decide)).1⟩

/-- C4: on a returning `add` call, a failure result (validation failed or
the keyed insert failed, the digest-collision case included) leaves the
whole state — head reference and chain table — untouched, while a success
advances the head to the sealed candidate, appends exactly its row, and
returns that block's digest. -/
theorem c4_add_outcomes (hashFn : BlockObject → String) (s : ChainState)
    (cand : Block) (rn : Int) (fuel : Nat) (res : AddResult)
    (s' : ChainState) (b' : Block)
    (h : Chain.add hashFn s cand rn fuel = some (res, s', b')) :
    (res = AddResult.fail →
      s' = s ∧
      (Block.isValid hashFn b' s.currentBlock = false ∨
        insertChainRow s.chainTable (chainRowOf hashFn b') = none)) ∧
    (∀ d, res = AddResult.ok d →
      s'.currentBlock = b' ∧
      s'.chainTable = s.chainTable ++ [chainRowOf hashFn b'] ∧
      d = Block.hash hashFn b') := by
  obtain ⟨-, hcase | ⟨tbl, hres, hv, hins, hs⟩⟩ :=
    add_cases hashFn s cand rn fuel res s' b' h
  · obtain ⟨hres, hs, hfail⟩ := hcase
    refine ⟨fun _ => ⟨hs, hfail⟩, fun d hd => ?_⟩
    rw [hres] at hd
    exact absurd hd (by simp)
  · constructor
    · intro hfail
      rw [hres] at hfail
      exact absurd hfail (by simp)
    · intro d hd
      have htbl : tbl = s.chainTable ++ [chainRowOf hashFn b'] := by
        unfold insertChainRow at hins
        by_cases hc : (s.chainTable.any
            (fun x => x.i == (chainRowOf hashFn b').i ||
              x.hash == (chainRowOf hashFn b').hash)) = true
        · rw [if_pos hc] at hins
          exact absurd hins (by simp)
        · rw [if_neg hc] at hins
          exact (Option.some.inj hins).symm
      have hself : b'.object.hash = some (Block.hash hashFn b') :=
        ((isValid_iff hashFn b' s.currentBlock).mp hv).2.2
      have hd' : d = (b'.object.hash).getD "" := by
        rw [hres] at hd
        exact (AddResult.ok.inj hd).symm
      refine ⟨by rw [hs], by rw [hs, htbl], ?_⟩
      rw [hd', hself, Option.getD_some]

/-- C4 witness: the concrete successful `add` of payload `"x"` on the
genesis ledger. -/
theorem c4_add_outcomes_witness :
    sX.currentBlock = bX ∧
    sX.chainTable = sGen.chainTable ++ [chainRowOf encHash bX] ∧
    dX = Block.hash encHash bX :=
  (c4_add_outcomes encHash sGen (Block.new (JVal.str "x") 200) 5 0
      (AddResult.ok dX) sX bX (by decide)).2 dX rfl

/-- C5: a successful `add` returns a digest on which three readings agree:
the hash column of the appended row, the new head's cached `object.hash`,
and a fresh recomputation of the new head's digest from its fields. -/
theorem c5_add_digest_agree (hashFn : BlockObject → String) (s : ChainState)
    (cand : Block) (rn : Int) (fuel : Nat) (d : String)
    (s' : ChainState) (b' : Block)
    (h : Chain.add hashFn s cand rn fuel = some (AddResult.ok d, s', b')) :
    s'.currentBlock.object.hash = some d ∧
    Block.hash hashFn s'.currentBlock = d ∧
    s'.chainTable = s.chainTable ++ [chainRowOf hashFn b'] ∧
    (chainRowOf hashFn b').hash = d := by
  obtain ⟨-, hcase | ⟨tbl, hres, hv, hins, hs⟩⟩ :=
    add_cases hashFn s cand rn fuel (AddResult.ok d) s' b' h
  · exact absurd hcase.1 (by simp)
  · have hself : b'.object.hash = some (Block.hash hashFn b') :=
      ((isValid_iff hashFn b' s.currentBlock).mp hv).2.2
    have hd : d = Block.hash hashFn b' := by
      have h2 := AddResult.ok.inj hres
      rw [h2, hself, Option.getD_some]
    have htbl : tbl = s.chainTable ++ [chainRowOf hashFn b'] := by
      unfold insertChainRow at hins
      by_cases hc : (s.chainTable.any
          (fun x => x.i == (chainRowOf hashFn b').i ||
            x.hash == (chainRowOf hashFn b').hash)) = true
      · rw [if_pos hc] at hins
        exact absurd hins (by simp)
      · rw [if_neg hc] at hins
        exact (Option.some.inj hins).symm
    subst hs
    exact ⟨by rw [hd]; exact hself, hd.symm, htbl, by rw [hd]; rfl⟩

/-- C5 witness: the three digest readings coincide on the concrete
successful `add` of payload `"x"`. -/
theorem c5_add_digest_agree_witness :
    sX.currentBlock.object.hash = some dX ∧
    Block.hash encHash sX.currentBlock = dX ∧
    sX.chainTable = sGen.chainTable ++ [chainRowOf encHash bX] ∧
    (chainRowOf encHash bX).hash = dX :=
  c5_add_digest_agree encHash sGen (Block.new (JVal.str "x") 200) 5 0
    dX sX bX (by decide)

/-- C10: even when `add` fails (validation or insert), the candidate block
the caller passed in has been mutated in place and is not restored: `add`
hands it back re-sealed, with the successor index, the head's digest as its
previous link, a refreshed cached digest, and the drawn nonce plus the
failed proof-of-work attempts — while the ledger state itself (head
reference and chain table) is exactly as before the call. -/
theorem c10_failed_add_mutates_candidate (hashFn : BlockObject → String)
    (s : ChainState) (cand : Block) (rn : Int) (fuel : Nat)
    (s' : ChainState) (b' : Block)
    (h : Chain.add hashFn s cand rn fuel = some (AddResult.fail, s', b')) :
    s' = s ∧
    b'.index = s.currentBlock.index + 1 ∧
    b'.previousHash = JVal.str (Block.hash hashFn s.currentBlock) ∧
    b'.object.hash = some (Block.hash hashFn b') ∧
    ∃ k : Nat, b'.nonce = rn + k := by
  obtain ⟨hidx, hprev, hself, hk⟩ :=
    add_block_facts hashFn s cand rn fuel AddResult.fail s' b' h
  obtain ⟨-, hcase | ⟨tbl, hres, -⟩⟩ :=
    add_cases hashFn s cand rn fuel AddResult.fail s' b' h
  · exact ⟨hcase.2.1, hidx, hprev, hself, hk⟩
  · exact absurd hres (by simp)

/-- C10 witness: the concrete failing `add` on `sBad` (its chain table
already holds a row at index 1): state untouched, candidate rebuilt — its
index, previous link, cached digest and nonce all differ from the passed-in
candidate `Block.new (JVal.str "z") 400`. -/
theorem c10_failed_add_mutates_candidate_witness :
    (sBadOut = sBad ∧
      bBad.index = sBad.currentBlock.index + 1 ∧
      bBad.previousHash = JVal.str (Block.hash encHash sBad.currentBlock) ∧
      bBad.object.hash = some (Block.hash encHash bBad) ∧
      ∃ k : Nat, bBad.nonce = 9 + k) ∧
    bBad ≠ Block.new (JVal.str "z") 400 :=
  ⟨c10_failed_add_mutates_candidate encHash sBad
      (Block.new (JVal.str "z") 400) 9 0 sBadOut bBad (by decide),
    by decide⟩

/-- The block `add` seals before the proof-of-work search:
`block.build(head.index + 1, head.hash(), randomNonce)`. -/
def sealedCand (hashFn : BlockObject → String) (s : ChainState)
    (cand : Block) (rn : Int) : Block :=
  Block.build hashFn cand (s.currentBlock.index + 1)
    (JVal.str (Block.hash hashFn s.currentBlock)) rn

/-- Reads the digest of the highest-indexed chain row and compares it
against the configured constraint; `true` when the table is empty. -/
def topRowRespects (tbl : List ChainRow) (p : String) : Bool :=
  match latestChainRow tbl with
  | some r => r.hash.take p.length == p
  | none => true

/-- C2 (amended): with a configured proof-of-work constraint, every block
committed through `add` has a digest starting with that exact string — the
returned digest and the appended row's digest column alike; with the
constraint disabled (`null`), `add` succeeds regardless of the digest's
shape — whenever the keyed insert of the sealed candidate's row goes
through, `add` commits it, no condition on the digest.  (The genesis block
seeded by `initialize` is exempt: it is committed without the proof-of-work
search — see the counterexample.) -/
theorem c2_add_respects_pow (hashFn : BlockObject → String) (s : ChainState)
    (cand : Block) (rn : Int) (fuel : Nat) :
    (∀ p d s' b', s.powHashPfx = some p →
      Chain.add hashFn s cand rn fuel = some (AddResult.ok d, s', b') →
      d.take p.length = p ∧
      s'.chainTable = s.chainTable ++ [chainRowOf hashFn b'] ∧
      (chainRowOf hashFn b').hash = d) ∧
    (∀ tbl, s.powHashPfx = none →
      insertChainRow s.chainTable (chainRowOf hashFn
        (sealedCand hashFn s cand rn)) = some tbl →
      Chain.add hashFn s cand rn fuel =
        some (AddResult.ok (Block.hash hashFn (sealedCand hashFn s cand rn)),
          { s with
            currentBlock := sealedCand hashFn s cand rn
            chainTable := tbl },
          sealedCand hashFn s cand rn)) := by
  constructor
  · intro p d s' b' hp h
    obtain ⟨hpow, hcase | ⟨tbl, hres, hv, hins, hs⟩⟩ :=
      add_cases hashFn s cand rn fuel (AddResult.ok d) s' b' h
    · exact absurd hcase.1 (by simp)
    · have hself : b'.object.hash = some (Block.hash hashFn b') :=
        ((isValid_iff hashFn b' s.currentBlock).mp hv).2.2
      have hd : d = Block.hash hashFn b' := by
        have h2 := AddResult.ok.inj hres
        rw [h2, hself, Option.getD_some]
      rw [hp] at hpow
      obtain ⟨hmatch, -⟩ := proofOfWork_some_spec hashFn p fuel _ b' hpow
      unfold powMatches at hmatch
      have hmatch' := of_decide_eq_true hmatch
      rw [hself, Option.getD_some] at hmatch'
      have htbl : tbl = s.chainTable ++ [chainRowOf hashFn b'] := by
        unfold insertChainRow at hins
        by_cases hc : (s.chainTable.any
            (fun x => x.i == (chainRowOf hashFn b').i ||
              x.hash == (chainRowOf hashFn b').hash)) = true
        · rw [if_pos hc] at hins
          exact absurd hins (by simp)
        · rw [if_neg hc] at hins
          exact (Option.some.inj hins).symm
      exact ⟨hd ▸ hmatch', by rw [hs, htbl], by rw [hd]; rfl⟩
  · intro tbl hp hins
    unfold sealedCand at hins ⊢
    unfold Chain.add
    simp only []
    rw [hp]
    rw [show Chain.proofOfWork hashFn none fuel
        (Block.build hashFn cand (s.currentBlock.index + 1)
          (JVal.str (Block.hash hashFn s.currentBlock)) rn) =
      some (Block.build hashFn cand (s.currentBlock.index + 1)
        (JVal.str (Block.hash hashFn s.currentBlock)) rn) by
        rw [Chain.proofOfWork]]
    simp only []
    rw [if_pos (isValid_build hashFn cand s.currentBlock rn)]
    unfold Chain.addBlockToChain
    rw [hins]
    simp only []
    rw [show (Block.build hashFn cand (s.currentBlock.index + 1)
        (JVal.str (Block.hash hashFn s.currentBlock)) rn).object.hash.getD ""
        = Block.hash hashFn (Block.build hashFn cand
          (s.currentBlock.index + 1)
          (JVal.str (Block.hash hashFn s.currentBlock)) rn) by
      rw [Block.build_selfhash, Option.getD_some]]

/-- C2 counterexample: the claim as stated extends the constraint to the
genesis block, but `initialize` commits genesis without running the
proof-of-work search.  Concretely, with constraint `"dab"` configured and
`encHash` as digest, seeding an empty ledger commits exactly one row whose
digest does not start with `"dab"`. -/
theorem c2_genesis_escapes_pow :
    (Chain.init encHash (some "dab") 100 [] []).chainTable.length = 1 ∧
    topRowRespects (Chain.init encHash (some "dab") 100 [] []).chainTable
      "dab" = false := by decide

/-- C2 witness: the concrete mining ledger `sH` (constraint `"h"`): the
digest `addY` returned starts with `"h"`, and so does the appended row's
digest column. -/
theorem c2_add_respects_pow_witness :
    dY.take (String.length "h") = "h" ∧
    sY.chainTable = sH.chainTable ++ [chainRowOf encHash bY] ∧
    (chainRowOf encHash bY).hash = dY :=
  (c2_add_respects_pow encHash sH (Block.new (JVal.str "y") 200) 3 1).1
    "h" dY sY bY rfl (by decide)

/-- C6: a second `anchor()` right after a successful one (no intervening
successful `add`, so the head is unchanged) returns the no-progress failure
and leaves the state — the anchor table included — untouched; in general,
whenever the scan over `(previousAnchorIndex, head.index]` selects no
rows, `anchor()` fails and changes nothing. -/
theorem c6_anchor_no_progress (listHash : List String → String)
    (s s1 : ChainState) :
    (Chain.anchor listHash s = (true, s1) →
      Chain.anchor listHash s1 = (false, s1)) ∧
    (scanRange s.chainTable (anchorPrev s.anchorTable).1
        s.currentBlock.index = [] →
      Chain.anchor listHash s = (false, s)) := by
  refine ⟨fun h => ?_, fun h => anchor_empty_scan listHash s h⟩
  obtain ⟨hprev, hcb, hct⟩ := anchor_then_empty listHash s s1 h
  apply anchor_empty_scan
  rw [hct, hcb, hprev]
  refine scanRange_eq_nil _ _ _ ?_
  intro r _
  show ¬(s.currentBlock.index < r.i ∧ r.i ≤ s.currentBlock.index)
  omega

/-- C6 witness: anchoring the concrete one-`add` ledger `sX` succeeds and
produces `sA`; anchoring again (head untouched) fails with `sA`
unchanged. -/
theorem c6_anchor_no_progress_witness :
    Chain.anchor listHash0 sA = (false, sA) :=
  (c6_anchor_no_progress listHash0 sX sA).1 (by decide)

/-- The row a successful `anchor()` inserts: the head's index, the digest
of the scanned range, and the previous anchor's digest (sentinel `-1` when
there is none). -/
def anchorRowNew (listHash : List String → String) (s : ChainState) :
    AnchorRow :=
  { i := s.currentBlock.index
    hash := listHash (scanRange s.chainTable (anchorPrev s.anchorTable).1
      s.currentBlock.index)
    previousHash := (anchorPrev s.anchorTable).2 }

/-- C7: a successful `anchor()` appends exactly one row whose
`previousHash` is the latest prior anchor's digest (the sentinel `-1` for
the first anchor) and whose index is the head's; the scanned digests are
exactly those of the chain rows with index in
`[previousAnchorIndex + 1, head.index]` — the covered range starts exactly
one past the previous anchor — and afterwards the appended row is the
latest anchor, so the next successful `anchor()` starts exactly where this
one ended and links to this one's digest: consecutive anchors cover
contiguous, non-overlapping ranges. -/
theorem c7_anchor_chaining (listHash : List String → String)
    (s s1 : ChainState) (h : Chain.anchor listHash s = (true, s1)) :
    s1.anchorTable = s.anchorTable ++ [anchorRowNew listHash s] ∧
    (anchorRowNew listHash s).i = s.currentBlock.index ∧
    (anchorRowNew listHash s).previousHash =
      (match latestAnchorRow s.anchorTable with
       | some a => JVal.str a.hash
       | none => JVal.num (-1)) ∧
    (∀ row ∈ s.chainTable,
      (anchorPrev s.anchorTable).1 + 1 ≤ row.i →
      row.i ≤ s.currentBlock.index →
      row.hash ∈ scanRange s.chainTable (anchorPrev s.anchorTable).1
        s.currentBlock.index) ∧
    (∀ hd ∈ scanRange s.chainTable (anchorPrev s.anchorTable).1
        s.currentBlock.index,
      ∃ row ∈ s.chainTable, row.hash = hd ∧
        (anchorPrev s.anchorTable).1 + 1 ≤ row.i ∧
        row.i ≤ s.currentBlock.index) ∧
    anchorPrev s1.anchorTable =
      (s.currentBlock.index, JVal.str (anchorRowNew listHash s).hash) := by
  obtain ⟨-, hs1⟩ := anchor_true_cases listHash s s1 h
  obtain ⟨hprev, -, -⟩ := anchor_then_empty listHash s s1 h
  refine ⟨by rw [hs1]; rfl, rfl, ?_, ?_, ?_, hprev⟩
  · unfold anchorRowNew anchorPrev
    cases latestAnchorRow s.anchorTable <;> rfl
  · intro row hrow h1 h2
    unfold scanRange
    apply List.mem_map_of_mem
    rw [mem_sortByI]
    rw [List.mem_filter]
    refine ⟨hrow, ?_⟩
    rw [Bool.and_eq_true, decide_eq_true_eq, decide_eq_true_eq]
    omega
  · intro hd hmem
    unfold scanRange at hmem
    obtain ⟨row, hrow, hhash⟩ := List.mem_map.mp hmem
    rw [mem_sortByI] at hrow
    obtain ⟨hrc, hrp⟩ := List.mem_filter.mp hrow
    rw [Bool.and_eq_true, decide_eq_true_eq, decide_eq_true_eq] at hrp
    exact ⟨row, hrc, hhash, by omega, hrp.2⟩

/-- C7 witness: on the concrete `anchor` of `sX`, the appended row's
`previousHash` is the sentinel (first anchor), its index is the head's, and
afterwards the previous-anchor data is exactly this row's index and
digest. -/
theorem c7_anchor_chaining_witness :
    sA.anchorTable = sX.anchorTable ++ [anchorRowNew listHash0 sX] ∧
    anchorPrev sA.anchorTable =
      (sX.currentBlock.index, JVal.str (anchorRowNew listHash0 sX).hash) :=
  ⟨(c7_anchor_chaining listHash0 sX sA (by decide)).1,
    (c7_anchor_chaining listHash0 sX sA (by decide)).2.2.2.2.2⟩

/-- Did an `add` call return a digest (success)? -/
def addOk : Option (AddResult × ChainState × Block) → Bool
  | some (AddResult.ok _, _, _) => true
  | _ => false

/-- The self-consistency check C1 asserts for a reload: recompute the
reloaded head's digest from its fields and compare it to the digest column
of the highest-indexed row `init` reloaded it from (`true` on an empty
table, where nothing is reloaded). -/
def reloadConsistent (hashFn : BlockObject → String) (now : Int)
    (tbl : List ChainRow) : Bool :=
  match latestChainRow tbl with
  | some row =>
    Block.hash hashFn (Chain.init hashFn none now tbl []).currentBlock ==
      row.hash
  | none => true

/-- C1 (refuted — code bug): commit a block through `add` (payload `"x"`,
digest function `encHash`), then reload its table with `init`: recomputing
the head's digest from the reloaded row's fields does *not* reproduce the
digest stored in that row.  The `data` column holds
`JSON.stringify(block.data)` (here the quoted text `"x"`), but the reload
constructs the block from the raw column text without parsing, so the
recomputed digest is over a different payload than the committed one. -/
theorem c1_reload_digest_mismatch :
    addOk addX = true ∧
    reloadConsistent encHash 300 sX.chainTable = false := by decide
